import Mathlib

/-!
Verification of the hierarchy-reconstruction core (`buildPageTree`) of
confluence-space-exporter, shallowly embedded from `src/index.js`.

The JavaScript function works on mutable objects shared between a `pageMap`
(a `Map` from page id to node object), a work `queue` of node objects, and
the `children` arrays of the nodes.  Since every node object is registered in
`pageMap` under its id exactly once and is never replaced, object identity
coincides with the page id; the embedding therefore stores nodes in an
insertion-ordered association list (`pageMap`) and represents the `children`
array of a node as the list of its children's ids (`childIds`).  Every read
and write of a node goes through the association list, which models the
shared-mutable-object semantics of the original faithfully.

`fetchChildren` is a remote call.  A build only ever observes finitely many
answers, so the remote side is modelled as a finite table from page id to
`Except` (error or list of page summaries); ids absent from the table answer
an empty list, mirroring `data.results || []`.  The driver loop is defined
with explicit fuel and `buildPageTree` supplies a fuel bound that is proved
sufficient, so the embedding is total.
-/

namespace ConfluenceExporter

/-- Minimal remote representation of a page: id and title, as returned by the
listing and child endpoints. -/
structure PageSummary where
  id : Nat
  title : String
  deriving Repr, DecidableEq

/-- Node of the constructed hierarchy: the `{ ...page, children: [] }` copy
made by `buildPageTree`, with the mutable `children` array represented by the
ids of its elements (node identity is id identity, see module docstring). -/
structure PageNode where
  id : Nat
  title : String
  childIds : List Nat
  deriving Repr, DecidableEq

/-- JS `Map.get`. -/
def mapGet {α : Type} (m : List (Nat × α)) (k : Nat) : Option α :=
  match m with
  | [] => none
  | (k', v) :: rest => if k' = k then some v else mapGet rest k

/-- JS `Map.set`: overwrite in place when the key is present (keeping the
original insertion position, as JS `Map` iteration order does), append
otherwise. -/
def mapSet {α : Type} (m : List (Nat × α)) (k : Nat) (v : α) : List (Nat × α) :=
  match m with
  | [] => [(k, v)]
  | (k', v') :: rest => if k' = k then (k, v) :: rest else (k', v') :: mapSet rest k v

/-- State of one `buildPageTree` run: the node registry `pageMap`, the
child-id-to-parent-id map `childOf`, the work `queue` (ids, in enqueue
order; entries are never removed, the JS code walks it with a `head`
index), the `head` index, and the trace `calls` of ids passed to
`fetchChildren`, in call order. -/
structure BuildState where
  pageMap : List (Nat × PageNode)
  childOf : List (Nat × Nat)
  queue : List Nat
  head : Nat
  calls : List Nat
  deriving Repr, DecidableEq

def initState : BuildState := ⟨[], [], [], 0, []⟩

/-- Step 1 of `buildPageTree` for one element of `initialPages`: if the id is
unregistered, register a fresh node with empty children and enqueue it. -/
def seedPage (st : BuildState) (page : PageSummary) : BuildState :=
  if (mapGet st.pageMap page.id).isSome then st
  else { st with
          pageMap := mapSet st.pageMap page.id ⟨page.id, page.title, []⟩
          queue := st.queue ++ [page.id] }

def seed (initialPages : List PageSummary) : BuildState :=
  initialPages.foldl seedPage initState

/-- Body of the inner `for (const childData of children)` loop: resolve the
child to its unique registered node (creating and enqueueing it when new),
append it to the current page's children unless already present there, and
record the child-to-parent edge (last write wins). -/
def processChild (parentId : Nat) (st : BuildState) (childData : PageSummary) : BuildState :=
  let st1 :=
    match mapGet st.pageMap childData.id with
    | some _ => st
    | none =>
        { st with
          pageMap := mapSet st.pageMap childData.id ⟨childData.id, childData.title, []⟩
          queue := st.queue ++ [childData.id] }
  let st2 :=
    match mapGet st1.pageMap parentId with
    | none => st1
    | some pnode =>
        if childData.id ∈ pnode.childIds then st1
        else
          { st1 with
            pageMap := mapSet st1.pageMap parentId
              { pnode with childIds := pnode.childIds ++ [childData.id] } }
  { st2 with childOf := mapSet st2.childOf childData.id parentId }

/-- Outcome of the driver loop: either the queue drained (`ok`) or a
`fetchChildren` call raised (`fail`), with the state at that point (the
failing call is already in `calls`). -/
inductive Outcome (ε : Type) where
  | ok (st : BuildState)
  | fail (e : ε) (st : BuildState)
  deriving Repr, DecidableEq

def Outcome.state {ε : Type} : Outcome ε → BuildState
  | .ok st => st
  | .fail _ st => st

/-- Step 2 of `buildPageTree`, the `while (head < queue.length)` loop, with
explicit fuel (`none` = fuel exhausted; `buildPageTree` supplies enough). -/
def runLoop {ε : Type} (fetch : Nat → Except ε (List PageSummary)) :
    Nat → BuildState → Option (Outcome ε)
  | 0, _ => none
  | fuel + 1, st =>
    if h : st.head < st.queue.length then
      let currentId := st.queue.get ⟨st.head, h⟩
      match fetch currentId with
      | .error e =>
          some (.fail e { st with head := st.head + 1, calls := st.calls ++ [currentId] })
      | .ok children =>
          runLoop fetch fuel
            (children.foldl (processChild currentId)
              { st with head := st.head + 1, calls := st.calls ++ [currentId] })
    else some (.ok st)

/-- Finite model of the remote `fetchChildren` endpoint. -/
def FetchTable (ε : Type) := List (Nat × Except ε (List PageSummary))

/-- Remote lookup behaviour: a tabulated answer, or an empty list
(`data.results || []`) for ids without an entry. -/
def fetchOf {ε : Type} (table : FetchTable ε) (id : Nat) : Except ε (List PageSummary) :=
  (mapGet table id).getD (.ok [])

/-- Ids carried by one fetch answer (an error carries none). -/
def resultIds {ε : Type} : Except ε (List PageSummary) → List Nat
  | .ok l => l.map (·.id)
  | .error _ => []

/-- Every id the build could ever encounter: ids of `initialPages` plus all
ids in tabulated answers.  Used only to compute a sufficient fuel bound. -/
def univIds {ε : Type} (table : FetchTable ε) (initialPages : List PageSummary) : List Nat :=
  initialPages.map (·.id) ++ table.flatMap (fun kv => resultIds kv.2)

/-- The whole `buildPageTree` run up to root classification: seed, then drain
the queue. -/
def buildPageTree {ε : Type} (table : FetchTable ε) (initialPages : List PageSummary) :
    Option (Outcome ε) :=
  runLoop (fetchOf table) ((univIds table initialPages).dedup.length + 1) (seed initialPages)

/-- Step 3 of `buildPageTree`: a page is a root iff no page has claimed it as
a child; roots are collected in registry insertion order. -/
def rootPages (st : BuildState) : List PageNode :=
  st.pageMap.filterMap
    (fun kv => if (mapGet st.childOf kv.1).isSome then none else some kv.2)

def rootIds (st : BuildState) : List Nat :=
  (rootPages st).map (·.id)

/-- Children array of the node registered under `k` in a registry (empty if
unregistered). -/
def childIdsAt (pm : List (Nat × PageNode)) (k : Nat) : List Nat :=
  ((mapGet pm k).map (·.childIds)).getD []

/-- Children array of the node registered under `k` (empty if unregistered). -/
def childIdsOfId (st : BuildState) (k : Nat) : List Nat :=
  childIdsAt st.pageMap k

/-- Ids of the registered parents whose children array contains `c`. -/
def parentsOf (st : BuildState) (c : Nat) : List Nat :=
  (st.pageMap.filter (fun kv => c ∈ kv.2.childIds)).map Prod.fst

/-- Sequence of page summaries observed by a run with call trace `calls`:
the initial listing, then each call's answer in order. -/
def obsSeq {ε : Type} (fetch : Nat → Except ε (List PageSummary))
    (initialPages : List PageSummary) (calls : List Nat) : List PageSummary :=
  initialPages ++ calls.flatMap (fun c => match fetch c with | .ok l => l | .error _ => [])

/-- Parent-child id pairs observed by a run with call trace `calls`. -/
def edgesOf {ε : Type} (fetch : Nat → Except ε (List PageSummary)) (calls : List Nat) :
    List (Nat × Nat) :=
  calls.flatMap (fun p => (resultIds (fetch p)).map (fun c => (p, c)))

/-- One breadth step of forest membership: a set of ids together with all
children of its members. -/
def reachStep (st : BuildState) (s : List Nat) : List Nat :=
  (s ++ s.flatMap (childIdsOfId st)).dedup

/-- Ids of the nodes in the returned forest: everything reachable from the
root set through `children` arrays (the registry size bounds the needed
number of expansion steps). -/
def reachableIds (st : BuildState) : List Nat :=
  (reachStep st)^[st.pageMap.length] (rootIds st)

/-- Ids observed by a run (in observation order, with repetitions). -/
def observedIds {ε : Type} (fetch : Nat → Except ε (List PageSummary))
    (initialPages : List PageSummary) (calls : List Nat) : List Nat :=
  (obsSeq fetch initialPages calls).map (·.id)

/-- Run invariant of the driver loop, relative to the summaries `obs` and
parent-child id pairs `edges` observed so far.  `initialIds` are the ids of
`initialPages`. -/
structure Inv (initialIds : List Nat) (obs : List PageSummary)
    (edges : List (Nat × Nat)) (st : BuildState) : Prop where
  queue_keys : st.queue = st.pageMap.map Prod.fst
  queue_nodup : st.queue.Nodup
  head_le : st.head ≤ st.queue.length
  calls_take : st.calls = st.queue.take st.head
  node_first : ∀ k, (mapGet st.pageMap k).map (fun n => (n.id, n.title))
      = (obs.find? (fun s => s.id == k)).map (fun s => (s.id, s.title))
  childIds_nodup : ∀ k n, mapGet st.pageMap k = some n → n.childIds.Nodup
  childIds_edges : ∀ k n c, mapGet st.pageMap k = some n → c ∈ n.childIds → (k, c) ∈ edges
  edges_childIds : ∀ p c, (p, c) ∈ edges → c ∈ childIdsOfId st p
  childOf_iff : ∀ c, (mapGet st.childOf c).isSome ↔ ∃ p, (p, c) ∈ edges
  childOf_last : ∀ c p, mapGet st.childOf c = some p → c ∈ childIdsOfId st p
  keys_from : ∀ k, k ∈ st.queue → k ∈ initialIds ∨ (mapGet st.childOf k).isSome

/-- Scenario with a multi-parent child: pages 1 and 2 both report page 3 as
their child. -/
def exMultiTable : FetchTable String := [(1, .ok [⟨3, "C"⟩]), (2, .ok [⟨3, "C"⟩])]

def exMultiInit : List PageSummary := [⟨1, "A"⟩, ⟨2, "B"⟩]

/-- Scenario with cyclic child data: pages 1 and 2 report each other as
children. -/
def exCycleTable : FetchTable String := [(1, .ok [⟨2, "B"⟩]), (2, .ok [⟨1, "A"⟩])]

def exCycleInit : List PageSummary := [⟨1, "A"⟩]

/-- Scenario 2 of the specification: page 2 is listed initially and is also a
child of page 1. -/
def exChainTable : FetchTable String := [(1, .ok [⟨2, "B"⟩]), (2, .ok [])]

def exChainInit : List PageSummary := [⟨1, "A"⟩, ⟨2, "B"⟩]

/-- Scenario 3 of the specification: one answer lists the same child twice. -/
def exDupTable : FetchTable String := [(1, .ok [⟨2, "B"⟩, ⟨2, "B"⟩])]

def exDupInit : List PageSummary := [⟨1, "A"⟩]

/-- Scenario where the second fetch fails. -/
def exErrTable : FetchTable String := [(1, .ok [⟨2, "B"⟩]), (2, .error "boom")]

def exErrInit : List PageSummary := [⟨1, "A"⟩]

/-- Scenario where a page reports itself as its own child. -/
def exSelfTable : FetchTable String := [(1, .ok [⟨1, "A"⟩])]

def exSelfInit : List PageSummary := [⟨1, "A"⟩]

/-- Scenario where the initial listing carries the same id twice with two
different titles. -/
def exDupInitTable : FetchTable String := [(1, .ok [])]

def exDupInitInit : List PageSummary := [⟨1, "A"⟩, ⟨1, "Z"⟩]

/-- Final state of the multi-parent scenario build. -/
def cMultiState : BuildState :=
  ⟨[(1, ⟨1, "A", [3]⟩), (2, ⟨2, "B", [3]⟩), (3, ⟨3, "C", []⟩)], [(3, 2)], [1, 2, 3], 3, [1, 2, 3]⟩

/-- Final state of the cyclic scenario build. -/
def cCycleState : BuildState :=
  ⟨[(1, ⟨1, "A", [2]⟩), (2, ⟨2, "B", [1]⟩)], [(2, 1), (1, 2)], [1, 2], 2, [1, 2]⟩

/-- Final state of the scenario-2 build. -/
def cChainState : BuildState :=
  ⟨[(1, ⟨1, "A", [2]⟩), (2, ⟨2, "B", []⟩)], [(2, 1)], [1, 2], 2, [1, 2]⟩

/-- Final state of the duplicate-child scenario build. -/
def cDupState : BuildState :=
  ⟨[(1, ⟨1, "A", [2]⟩), (2, ⟨2, "B", []⟩)], [(2, 1)], [1, 2], 2, [1, 2]⟩

/-- State at which the failing-fetch scenario build aborts. -/
def cErrState : BuildState :=
  ⟨[(1, ⟨1, "A", [2]⟩), (2, ⟨2, "B", []⟩)], [(2, 1)], [1, 2], 2, [1, 2]⟩

/-- Final state of the self-child scenario build. -/
def cSelfState : BuildState :=
  ⟨[(1, ⟨1, "A", [1]⟩)], [(1, 1)], [1], 1, [1]⟩

/-- Final state of the duplicated-initial-listing scenario build. -/
def cDupInitState : BuildState :=
  ⟨[(1, ⟨1, "A", []⟩)], [], [1], 1, [1]⟩

theorem mapGet_mapSet_self {α : Type} (m : List (Nat × α)) (k : Nat) (v : α) :
    mapGet (mapSet m k v) k = some v := by
  induction m with
  | nil => simp [mapGet, mapSet]
  | cons hd tl ih =>
    obtain ⟨k', v'⟩ := hd
    by_cases h : k' = k
    · simp [mapGet, mapSet, h]
    · simp [mapGet, mapSet, h, ih]

theorem mapGet_mapSet_ne {α : Type} (m : List (Nat × α)) {k k' : Nat} (v : α) (h : k' ≠ k) :
    mapGet (mapSet m k v) k' = mapGet m k' := by
  induction m with
  | nil => simp [mapGet, mapSet, Ne.symm h]
  | cons hd tl ih =>
    obtain ⟨k0, v0⟩ := hd
    by_cases h0 : k0 = k
    · subst h0
      simp [mapGet, mapSet, Ne.symm h]
    · simp [mapGet, mapSet, h0, ih]

theorem mapGet_isSome_iff {α : Type} (m : List (Nat × α)) (k : Nat) :
    (mapGet m k).isSome ↔ k ∈ m.map Prod.fst := by
  induction m with
  | nil => simp [mapGet]
  | cons hd tl ih =>
    obtain ⟨k', v'⟩ := hd
    by_cases h : k' = k
    · simp [mapGet, h]
    · simp [mapGet, h, ih, Ne.symm h]

theorem mapGet_eq_none_iff {α : Type} (m : List (Nat × α)) (k : Nat) :
    mapGet m k = none ↔ k ∉ m.map Prod.fst := by
  rw [← mapGet_isSome_iff, Option.isSome_iff_ne_none]
  simp

theorem keys_mapSet_isSome {α : Type} (m : List (Nat × α)) (k : Nat) (v : α)
    (h : (mapGet m k).isSome) : (mapSet m k v).map Prod.fst = m.map Prod.fst := by
  induction m with
  | nil => simp [mapGet] at h
  | cons hd tl ih =>
    obtain ⟨k', v'⟩ := hd
    by_cases h0 : k' = k
    · simp [mapSet, h0]
    · simp [mapGet, h0] at h
      simp [mapSet, h0, ih h]

theorem keys_mapSet_none {α : Type} (m : List (Nat × α)) (k : Nat) (v : α)
    (h : mapGet m k = none) : (mapSet m k v).map Prod.fst = m.map Prod.fst ++ [k] := by
  induction m with
  | nil => simp [mapSet]
  | cons hd tl ih =>
    obtain ⟨k', v'⟩ := hd
    by_cases h0 : k' = k
    · simp [mapGet, h0] at h
    · simp [mapGet, h0] at h
      simp [mapSet, h0, ih h]

theorem mem_of_mapGet_eq_some {α : Type} {m : List (Nat × α)} {k : Nat} {v : α}
    (h : mapGet m k = some v) : (k, v) ∈ m := by
  induction m with
  | nil => simp [mapGet] at h
  | cons hd tl ih =>
    obtain ⟨k', v'⟩ := hd
    by_cases h0 : k' = k
    · subst h0
      simp [mapGet] at h
      simp [h]
    · simp [mapGet, h0] at h
      simp [ih h]

theorem mapGet_eq_some_of_mem {α : Type} {m : List (Nat × α)} {k : Nat} {v : α}
    (hn : (m.map Prod.fst).Nodup) (hm : (k, v) ∈ m) : mapGet m k = some v := by
  induction m with
  | nil => simp at hm
  | cons hd tl ih =>
    obtain ⟨k', v'⟩ := hd
    simp at hn
    rcases List.mem_cons.mp hm with hm1 | hm1
    · obtain ⟨rfl, rfl⟩ : k = k' ∧ v = v' := by simpa using hm1
      simp [mapGet]
    · have hk : k' ≠ k := by
        rintro rfl
        exact hn.1 v hm1
      simp [mapGet, hk, ih hn.2 hm1]

theorem mem_childIdsAt {pm : List (Nat × PageNode)} {k c : Nat} :
    c ∈ childIdsAt pm k ↔ ∃ n, mapGet pm k = some n ∧ c ∈ n.childIds := by
  unfold childIdsAt
  cases h : mapGet pm k <;> simp [h]

theorem mem_childIdsOfId {st : BuildState} {k c : Nat} :
    c ∈ childIdsOfId st k ↔ ∃ n, mapGet st.pageMap k = some n ∧ c ∈ n.childIds :=
  mem_childIdsAt

theorem childIdsAt_mono_fresh {pm : List (Nat × PageNode)} {pid : Nat} {t : String}
    (hnone : mapGet pm pid = none) {p c : Nat} (hc : c ∈ childIdsAt pm p) :
    c ∈ childIdsAt (mapSet pm pid ⟨pid, t, []⟩) p := by
  obtain ⟨n, hg, hn⟩ := mem_childIdsAt.mp hc
  by_cases hpp : p = pid
  · subst hpp
    rw [hg] at hnone
    exact absurd hnone (by simp)
  · exact mem_childIdsAt.mpr ⟨n, by rw [mapGet_mapSet_ne pm _ hpp]; exact hg, hn⟩

theorem childIdsAt_mono_append {pm : List (Nat × PageNode)} {p0 : Nat} {pnode : PageNode}
    (hp : mapGet pm p0 = some pnode) (x : Nat) {p c : Nat} (hc : c ∈ childIdsAt pm p) :
    c ∈ childIdsAt (mapSet pm p0 { pnode with childIds := pnode.childIds ++ [x] }) p := by
  obtain ⟨n, hg, hn⟩ := mem_childIdsAt.mp hc
  by_cases hpp : p = p0
  · subst hpp
    rw [hg] at hp
    obtain rfl : n = pnode := by injection hp
    exact mem_childIdsAt.mpr ⟨_, mapGet_mapSet_self pm p _, by simp [hn]⟩
  · exact mem_childIdsAt.mpr ⟨n, by rw [mapGet_mapSet_ne pm _ hpp]; exact hg, hn⟩

theorem find?_id_none_of_map_eq {obs : List PageSummary} {pm : List (Nat × PageNode)}
    (hnf : ∀ k, (mapGet pm k).map (fun n => (n.id, n.title))
        = (obs.find? (fun s => s.id == k)).map (fun s => (s.id, s.title)))
    {k : Nat} (h : obs.find? (fun s => s.id == k) = none) : mapGet pm k = none := by
  have h1 := hnf k
  rw [h] at h1
  simpa using h1

/-- Extending the observation list by a summary whose id is already
registered does not change the first-observation characterisation. -/
theorem node_first_extend {obs : List PageSummary} {pm : List (Nat × PageNode)}
    (hnf : ∀ k, (mapGet pm k).map (fun n => (n.id, n.title))
        = (obs.find? (fun s => s.id == k)).map (fun s => (s.id, s.title)))
    (page : PageSummary) (h : (mapGet pm page.id).isSome) :
    ∀ k, (mapGet pm k).map (fun n => (n.id, n.title))
        = ((obs ++ [page]).find? (fun s => s.id == k)).map (fun s => (s.id, s.title)) := by
  intro k
  rw [List.find?_append]
  cases hf : obs.find? (fun s => s.id == k) with
  | some s => simp [hnf k, hf]
  | none =>
    have hknone : mapGet pm k = none := find?_id_none_of_map_eq hnf hf
    have hk : page.id ≠ k := by
      rintro rfl
      rw [hknone] at h
      simp at h
    simp [hknone, List.find?_cons, hk]

/-- Registering a fresh node for a newly observed summary re-establishes the
first-observation characterisation for the extended observation list. -/
theorem node_first_extend_new {obs : List PageSummary} {pm : List (Nat × PageNode)}
    (hnf : ∀ k, (mapGet pm k).map (fun n => (n.id, n.title))
        = (obs.find? (fun s => s.id == k)).map (fun s => (s.id, s.title)))
    (page : PageSummary) (h : mapGet pm page.id = none) :
    ∀ k, (mapGet (mapSet pm page.id ⟨page.id, page.title, []⟩) k).map (fun n => (n.id, n.title))
        = ((obs ++ [page]).find? (fun s => s.id == k)).map (fun s => (s.id, s.title)) := by
  intro k
  rw [List.find?_append]
  by_cases hk : k = page.id
  · subst hk
    rw [mapGet_mapSet_self]
    have hf : obs.find? (fun s => s.id == page.id) = none := by
      cases hf : obs.find? (fun s => s.id == page.id) with
      | none => rfl
      | some s =>
        have h1 := hnf page.id
        rw [hf, h] at h1
        simp at h1
    simp [hf]
  · rw [mapGet_mapSet_ne pm _ hk]
    cases hf : obs.find? (fun s => s.id == k) with
    | some s => simp [hnf k, hf]
    | none =>
      have hknone : mapGet pm k = none := find?_id_none_of_map_eq hnf hf
      have hb : (page.id == k) = false := by
        simp only [beq_eq_false_iff_ne, ne_eq]
        exact fun hh => hk hh.symm
      simp [hknone, hf, hb]

/-- Updating only the children array of a registered node does not change the
first-observation characterisation. -/
theorem node_first_update_childIds {obs : List PageSummary} {pm : List (Nat × PageNode)}
    (hnf : ∀ k, (mapGet pm k).map (fun n => (n.id, n.title))
        = (obs.find? (fun s => s.id == k)).map (fun s => (s.id, s.title)))
    {p : Nat} {pnode : PageNode} (hp : mapGet pm p = some pnode) (cids : List Nat) :
    ∀ k, (mapGet (mapSet pm p { pnode with childIds := cids }) k).map (fun n => (n.id, n.title))
        = (obs.find? (fun s => s.id == k)).map (fun s => (s.id, s.title)) := by
  intro k
  by_cases hk : k = p
  · subst hk
    rw [mapGet_mapSet_self]
    have h1 := hnf k
    rw [hp] at h1
    simpa using h1
  · rw [mapGet_mapSet_ne pm _ hk]
    exact hnf k

theorem Inv.keys_nodup {initIds : List Nat} {obs : List PageSummary} {edges : List (Nat × Nat)}
    {st : BuildState} (hi : Inv initIds obs edges st) : (st.pageMap.map Prod.fst).Nodup :=
  hi.queue_keys ▸ hi.queue_nodup

theorem Inv.node_id {initIds : List Nat} {obs : List PageSummary} {edges : List (Nat × Nat)}
    {st : BuildState} (hi : Inv initIds obs edges st) {k : Nat} {n : PageNode}
    (h : mapGet st.pageMap k = some n) : n.id = k := by
  have h1 := hi.node_first k
  rw [h] at h1
  cases hf : obs.find? (fun s => s.id == k) with
  | none => rw [hf] at h1; simp at h1
  | some s =>
    rw [hf] at h1
    simp at h1
    have hs : s.id = k := by simpa using List.find?_some hf
    rw [h1.1, hs]

theorem Inv.keys_iff_obs {initIds : List Nat} {obs : List PageSummary} {edges : List (Nat × Nat)}
    {st : BuildState} (hi : Inv initIds obs edges st) (k : Nat) :
    (mapGet st.pageMap k).isSome ↔ k ∈ obs.map (·.id) := by
  constructor
  · intro h
    obtain ⟨n, hn⟩ := Option.isSome_iff_exists.mp h
    have h1 := hi.node_first k
    rw [hn] at h1
    cases hf : obs.find? (fun s => s.id == k) with
    | none => rw [hf] at h1; simp at h1
    | some s =>
      have hs : s.id = k := by simpa using List.find?_some hf
      exact List.mem_map.mpr ⟨s, List.mem_of_find?_eq_some hf, hs⟩
  · intro h
    obtain ⟨s, hs, hsk⟩ := List.mem_map.mp h
    have hf : (obs.find? (fun s => s.id == k)).isSome :=
      List.find?_isSome.mpr ⟨s, hs, by simp [hsk]⟩
    obtain ⟨s', hs'⟩ := Option.isSome_iff_exists.mp hf
    have h1 := hi.node_first k
    rw [hs'] at h1
    cases hg : mapGet st.pageMap k with
    | none => rw [hg] at h1; simp at h1
    | some n => simp

theorem inv_initState (initIds : List Nat) : Inv initIds [] [] initState := by
  constructor <;> simp [initState, mapGet, childIdsOfId, childIdsAt]

theorem inv_seedPage {initIds : List Nat} {obs : List PageSummary} {edges : List (Nat × Nat)}
    {st : BuildState} (hi : Inv initIds obs edges st) {page : PageSummary}
    (hpage : page.id ∈ initIds) :
    Inv initIds (obs ++ [page]) edges (seedPage st page) := by
  by_cases h : (mapGet st.pageMap page.id).isSome
  · have hs : seedPage st page = st := by simp [seedPage, h]
    rw [hs]
    exact { hi with node_first := node_first_extend hi.node_first page h }
  · have hnone : mapGet st.pageMap page.id = none := by
      cases hg : mapGet st.pageMap page.id with
      | none => rfl
      | some n => rw [hg] at h; simp at h
    have hqueue : page.id ∉ st.queue := by
      rw [hi.queue_keys]
      exact (mapGet_eq_none_iff _ _).mp hnone
    have hs : seedPage st page
        = { st with pageMap := mapSet st.pageMap page.id ⟨page.id, page.title, []⟩
                    queue := st.queue ++ [page.id] } := by
      simp [seedPage, hnone]
    rw [hs]
    refine ⟨?_, ?_, ?_, ?_, ?_, ?_, ?_, ?_, ?_, ?_, ?_⟩
    · show st.queue ++ [page.id] = _
      rw [keys_mapSet_none st.pageMap _ _ hnone, hi.queue_keys]
    · show (st.queue ++ [page.id]).Nodup
      simp [List.nodup_append, hi.queue_nodup, hqueue]
    · show st.head ≤ (st.queue ++ [page.id]).length
      simp
      exact le_trans hi.head_le (by omega)
    · show st.calls = (st.queue ++ [page.id]).take st.head
      rw [List.take_append_of_le_length hi.head_le]
      exact hi.calls_take
    · exact node_first_extend_new hi.node_first page hnone
    · intro k n hg
      by_cases hk : k = page.id
      · subst hk
        rw [mapGet_mapSet_self] at hg
        obtain rfl : PageNode.mk page.id page.title [] = n := by injection hg
        simp
      · rw [mapGet_mapSet_ne st.pageMap _ hk] at hg
        exact hi.childIds_nodup k n hg
    · intro k n c hg hc
      by_cases hk : k = page.id
      · subst hk
        rw [mapGet_mapSet_self] at hg
        obtain rfl : PageNode.mk page.id page.title [] = n := by injection hg
        simp at hc
      · rw [mapGet_mapSet_ne st.pageMap _ hk] at hg
        exact hi.childIds_edges k n c hg hc
    · intro p c hpc
      exact childIdsAt_mono_fresh hnone (hi.edges_childIds p c hpc)
    · exact hi.childOf_iff
    · intro c p hcp
      exact childIdsAt_mono_fresh hnone (hi.childOf_last c p hcp)
    · intro k hk
      rcases List.mem_append.mp hk with hk | hk
      · exact hi.keys_from k hk
      · left
        simp at hk
        rw [hk]
        exact hpage

theorem inv_seed (initialPages : List PageSummary) :
    Inv (initialPages.map (·.id)) initialPages [] (seed initialPages) := by
  suffices h : ∀ (pages : List PageSummary) (obs : List PageSummary) (st : BuildState)
      (initIds : List Nat), Inv initIds obs [] st → (∀ p ∈ pages, p.id ∈ initIds) →
      Inv initIds (obs ++ pages) [] (pages.foldl seedPage st) by
    have h2 := h initialPages [] initState (initialPages.map (·.id)) (inv_initState _)
      (fun p hp => List.mem_map_of_mem _ hp)
    simpa [seed] using h2
  intro pages
  induction pages with
  | nil => intro obs st initIds hi _; simpa using hi
  | cons page rest ih =>
    intro obs st initIds hi hmem
    have h1 := inv_seedPage hi (hmem page (by simp))
    have h2 := ih (obs ++ [page]) (seedPage st page) initIds h1
      (fun p hp => hmem p (by simp [hp]))
    simpa using h2

theorem processChild_eq_known {parentId : Nat} {st : BuildState} {cd : PageSummary}
    {cn pnode : PageNode}
    (h1 : mapGet st.pageMap cd.id = some cn)
    (h2 : mapGet st.pageMap parentId = some pnode) :
    processChild parentId st cd =
      if cd.id ∈ pnode.childIds then
        { st with childOf := mapSet st.childOf cd.id parentId }
      else
        { st with pageMap := mapSet st.pageMap parentId
                    { pnode with childIds := pnode.childIds ++ [cd.id] }
                  childOf := mapSet st.childOf cd.id parentId } := by
  simp only [processChild, h1, h2]
  split <;> rfl

theorem processChild_eq_new {parentId : Nat} {st : BuildState} {cd : PageSummary}
    {pnode : PageNode}
    (h1 : mapGet st.pageMap cd.id = none)
    (h2 : mapGet (mapSet st.pageMap cd.id ⟨cd.id, cd.title, []⟩) parentId = some pnode) :
    processChild parentId st cd =
      if cd.id ∈ pnode.childIds then
        { st with pageMap := mapSet st.pageMap cd.id ⟨cd.id, cd.title, []⟩
                  queue := st.queue ++ [cd.id]
                  childOf := mapSet st.childOf cd.id parentId }
      else
        { st with pageMap := mapSet (mapSet st.pageMap cd.id ⟨cd.id, cd.title, []⟩) parentId
                    { pnode with childIds := pnode.childIds ++ [cd.id] }
                  queue := st.queue ++ [cd.id]
                  childOf := mapSet st.childOf cd.id parentId } := by
  simp only [processChild, h1, h2]
  split <;> rfl

theorem inv_processChild {initIds : List Nat} {obs : List PageSummary} {edges : List (Nat × Nat)}
    {st : BuildState} (hi : Inv initIds obs edges st) {parentId : Nat}
    (hp : parentId ∈ st.queue) (cd : PageSummary) :
    Inv initIds (obs ++ [cd]) (edges ++ [(parentId, cd.id)]) (processChild parentId st cd) := by
  have hparent0 : (mapGet st.pageMap parentId).isSome := by
    rw [mapGet_isSome_iff, ← hi.queue_keys]
    exact hp
  obtain ⟨pnode, hpn⟩ := Option.isSome_iff_exists.mp hparent0
  have hCiff : ∀ c, (mapGet (mapSet st.childOf cd.id parentId) c).isSome ↔
      ∃ p, (p, c) ∈ edges ++ [(parentId, cd.id)] := by
    intro c
    by_cases hc : c = cd.id
    · subst hc
      rw [mapGet_mapSet_self]
      simp
    · rw [mapGet_mapSet_ne st.childOf _ hc, hi.childOf_iff c]
      constructor
      · rintro ⟨p, hpe⟩
        exact ⟨p, List.mem_append_left _ hpe⟩
      · rintro ⟨p, hpe⟩
        rcases List.mem_append.mp hpe with hpe | hpe
        · exact ⟨p, hpe⟩
        · simp at hpe
          exact absurd hpe.2 hc
  have hCsome : ∀ k, (mapGet st.childOf k).isSome →
      (mapGet (mapSet st.childOf cd.id parentId) k).isSome := by
    intro k hk
    by_cases hc : k = cd.id
    · subst hc
      rw [mapGet_mapSet_self]
      simp
    · rw [mapGet_mapSet_ne st.childOf _ hc]
      exact hk
  have hkeysFrom : ∀ k, k ∈ st.queue →
      k ∈ initIds ∨ (mapGet (mapSet st.childOf cd.id parentId) k).isSome := by
    intro k hk
    rcases hi.keys_from k hk with h | h
    · exact Or.inl h
    · exact Or.inr (hCsome k h)
  cases hA : mapGet st.pageMap cd.id with
  | some cn =>
    have hAs : (mapGet st.pageMap cd.id).isSome := by simp [hA]
    rw [processChild_eq_known hA hpn]
    by_cases hmem : cd.id ∈ pnode.childIds
    · rw [if_pos hmem]
      refine ⟨hi.queue_keys, hi.queue_nodup, hi.head_le, hi.calls_take,
        node_first_extend hi.node_first cd hAs, hi.childIds_nodup, ?_, ?_, hCiff, ?_, hkeysFrom⟩
      · intro k n c hg hc
        exact List.mem_append_left _ (hi.childIds_edges k n c hg hc)
      · intro p c hpc
        rcases List.mem_append.mp hpc with hpc | hpc
        · exact hi.edges_childIds p c hpc
        · simp at hpc
          obtain ⟨rfl, rfl⟩ := hpc
          exact mem_childIdsAt.mpr ⟨pnode, hpn, hmem⟩
      · intro c p hcp
        by_cases hc : c = cd.id
        · subst hc
          rw [mapGet_mapSet_self] at hcp
          obtain rfl : parentId = p := by injection hcp
          exact mem_childIdsAt.mpr ⟨pnode, hpn, hmem⟩
        · rw [mapGet_mapSet_ne st.childOf _ hc] at hcp
          exact hi.childOf_last c p hcp
    · rw [if_neg hmem]
      refine ⟨?_, hi.queue_nodup, hi.head_le, hi.calls_take,
        node_first_update_childIds (node_first_extend hi.node_first cd hAs) hpn _,
        ?_, ?_, ?_, hCiff, ?_, hkeysFrom⟩
      · show st.queue = _
        rw [keys_mapSet_isSome st.pageMap parentId _ (by simp [hpn])]
        exact hi.queue_keys
      · intro k n hg
        by_cases hk : k = parentId
        · subst hk
          rw [mapGet_mapSet_self] at hg
          obtain rfl : ({ pnode with childIds := pnode.childIds ++ [cd.id] } : PageNode) = n := by
            injection hg
          simp [List.nodup_append, hi.childIds_nodup _ pnode hpn, hmem]
        · rw [mapGet_mapSet_ne st.pageMap _ hk] at hg
          exact hi.childIds_nodup k n hg
      · intro k n c hg hc
        by_cases hk : k = parentId
        · subst hk
          rw [mapGet_mapSet_self] at hg
          obtain rfl : ({ pnode with childIds := pnode.childIds ++ [cd.id] } : PageNode) = n := by
            injection hg
          rcases List.mem_append.mp hc with hc | hc
          · exact List.mem_append_left _ (hi.childIds_edges _ pnode c hpn hc)
          · simp at hc
            subst hc
            exact List.mem_append_right _ (by simp)
        · rw [mapGet_mapSet_ne st.pageMap _ hk] at hg
          exact List.mem_append_left _ (hi.childIds_edges k n c hg hc)
      · intro p c hpc
        rcases List.mem_append.mp hpc with hpc | hpc
        · exact childIdsAt_mono_append hpn cd.id (hi.edges_childIds p c hpc)
        · simp at hpc
          obtain ⟨rfl, rfl⟩ := hpc
          exact mem_childIdsAt.mpr ⟨_, mapGet_mapSet_self st.pageMap _ _, by simp⟩
      · intro c p hcp
        by_cases hc : c = cd.id
        · subst hc
          rw [mapGet_mapSet_self] at hcp
          obtain rfl : parentId = p := by injection hcp
          exact mem_childIdsAt.mpr ⟨_, mapGet_mapSet_self st.pageMap _ _, by simp⟩
        · rw [mapGet_mapSet_ne st.childOf _ hc] at hcp
          exact childIdsAt_mono_append hpn cd.id (hi.childOf_last c p hcp)
  | none =>
    have hne : parentId ≠ cd.id := by
      rintro rfl
      rw [hA] at hpn
      simp at hpn
    have hpn1 : mapGet (mapSet st.pageMap cd.id ⟨cd.id, cd.title, []⟩) parentId = some pnode := by
      rw [mapGet_mapSet_ne st.pageMap _ hne]
      exact hpn
    have hqueue : cd.id ∉ st.queue := by
      rw [hi.queue_keys]
      exact (mapGet_eq_none_iff _ _).mp hA
    have hkeysFrom1 : ∀ k, k ∈ st.queue ++ [cd.id] →
        k ∈ initIds ∨ (mapGet (mapSet st.childOf cd.id parentId) k).isSome := by
      intro k hk
      rcases List.mem_append.mp hk with hk | hk
      · exact hkeysFrom k hk
      · simp at hk
        subst hk
        right
        rw [mapGet_mapSet_self]
        simp
    have hqk : st.queue ++ [cd.id]
        = (mapSet st.pageMap cd.id ⟨cd.id, cd.title, []⟩).map Prod.fst := by
      rw [keys_mapSet_none st.pageMap _ _ hA, hi.queue_keys]
    have hqn : (st.queue ++ [cd.id]).Nodup := by
      simp [List.nodup_append, hi.queue_nodup, hqueue]
    have hhd : st.head ≤ (st.queue ++ [cd.id]).length :=
      le_trans hi.head_le (by simp)
    have hct : st.calls = (st.queue ++ [cd.id]).take st.head := by
      rw [List.take_append_of_le_length hi.head_le]
      exact hi.calls_take
    rw [processChild_eq_new hA hpn1]
    by_cases hmem : cd.id ∈ pnode.childIds
    · rw [if_pos hmem]
      refine ⟨hqk, hqn, hhd, hct, node_first_extend_new hi.node_first cd hA,
        ?_, ?_, ?_, hCiff, ?_, hkeysFrom1⟩
      · intro k n hg
        by_cases hk : k = cd.id
        · subst hk
          rw [mapGet_mapSet_self] at hg
          obtain rfl : PageNode.mk cd.id cd.title [] = n := by injection hg
          simp
        · rw [mapGet_mapSet_ne st.pageMap _ hk] at hg
          exact hi.childIds_nodup k n hg
      · intro k n c hg hc
        by_cases hk : k = cd.id
        · subst hk
          rw [mapGet_mapSet_self] at hg
          obtain rfl : PageNode.mk cd.id cd.title [] = n := by injection hg
          simp at hc
        · rw [mapGet_mapSet_ne st.pageMap _ hk] at hg
          exact List.mem_append_left _ (hi.childIds_edges k n c hg hc)
      · intro p c hpc
        rcases List.mem_append.mp hpc with hpc | hpc
        · exact childIdsAt_mono_fresh hA (hi.edges_childIds p c hpc)
        · simp at hpc
          obtain ⟨rfl, rfl⟩ := hpc
          exact mem_childIdsAt.mpr ⟨pnode, hpn1, hmem⟩
      · intro c p hcp
        by_cases hc : c = cd.id
        · subst hc
          rw [mapGet_mapSet_self] at hcp
          obtain rfl : parentId = p := by injection hcp
          exact mem_childIdsAt.mpr ⟨pnode, hpn1, hmem⟩
        · rw [mapGet_mapSet_ne st.childOf _ hc] at hcp
          exact childIdsAt_mono_fresh hA (hi.childOf_last c p hcp)
    · rw [if_neg hmem]
      refine ⟨?_, hqn, hhd, hct,
        node_first_update_childIds (node_first_extend_new hi.node_first cd hA) hpn1 _,
        ?_, ?_, ?_, hCiff, ?_, hkeysFrom1⟩
      · show st.queue ++ [cd.id] = _
        rw [keys_mapSet_isSome _ parentId _ (by simp [hpn1])]
        exact hqk
      · intro k n hg
        by_cases hk : k = parentId
        · subst hk
          rw [mapGet_mapSet_self] at hg
          obtain rfl : ({ pnode with childIds := pnode.childIds ++ [cd.id] } : PageNode) = n := by
            injection hg
          simp [List.nodup_append, hi.childIds_nodup _ pnode hpn, hmem]
        · rw [mapGet_mapSet_ne _ _ hk] at hg
          by_cases hk2 : k = cd.id
          · subst hk2
            rw [mapGet_mapSet_self] at hg
            obtain rfl : PageNode.mk cd.id cd.title [] = n := by injection hg
            simp
          · rw [mapGet_mapSet_ne st.pageMap _ hk2] at hg
            exact hi.childIds_nodup k n hg
      · intro k n c hg hc
        by_cases hk : k = parentId
        · subst hk
          rw [mapGet_mapSet_self] at hg
          obtain rfl : ({ pnode with childIds := pnode.childIds ++ [cd.id] } : PageNode) = n := by
            injection hg
          rcases List.mem_append.mp hc with hc | hc
          · exact List.mem_append_left _ (hi.childIds_edges _ pnode c hpn hc)
          · simp at hc
            subst hc
            exact List.mem_append_right _ (by simp)
        · rw [mapGet_mapSet_ne _ _ hk] at hg
          by_cases hk2 : k = cd.id
          · subst hk2
            rw [mapGet_mapSet_self] at hg
            obtain rfl : PageNode.mk cd.id cd.title [] = n := by injection hg
            simp at hc
          · rw [mapGet_mapSet_ne st.pageMap _ hk2] at hg
            exact List.mem_append_left _ (hi.childIds_edges k n c hg hc)
      · intro p c hpc
        rcases List.mem_append.mp hpc with hpc | hpc
        · exact childIdsAt_mono_append hpn1 cd.id (childIdsAt_mono_fresh hA (hi.edges_childIds p c hpc))
        · simp at hpc
          obtain ⟨rfl, rfl⟩ := hpc
          exact mem_childIdsAt.mpr ⟨_, mapGet_mapSet_self _ _ _, by simp⟩
      · intro c p hcp
        by_cases hc : c = cd.id
        · subst hc
          rw [mapGet_mapSet_self] at hcp
          obtain rfl : parentId = p := by injection hcp
          exact mem_childIdsAt.mpr ⟨_, mapGet_mapSet_self _ _ _, by simp⟩
        · rw [mapGet_mapSet_ne st.childOf _ hc] at hcp
          exact childIdsAt_mono_append hpn1 cd.id (childIdsAt_mono_fresh hA (hi.childOf_last c p hcp))

theorem processChild_calls (parentId : Nat) (st : BuildState) (cd : PageSummary) :
    (processChild parentId st cd).calls = st.calls ∧
      (processChild parentId st cd).head = st.head := by
  simp only [processChild]
  split <;> split <;> (try split) <;> exact ⟨rfl, rfl⟩

theorem foldChildren_calls (parentId : Nat) (children : List PageSummary) (st : BuildState) :
    (children.foldl (processChild parentId) st).calls = st.calls ∧
      (children.foldl (processChild parentId) st).head = st.head := by
  induction children generalizing st with
  | nil => exact ⟨rfl, rfl⟩
  | cons c rest ih =>
    have h1 := processChild_calls parentId st c
    have h2 := ih (processChild parentId st c)
    exact ⟨h2.1.trans h1.1, h2.2.trans h1.2⟩

theorem obsSeq_snoc {ε : Type} (fetch : Nat → Except ε (List PageSummary))
    (initialPages : List PageSummary) (calls : List Nat) (c : Nat) :
    obsSeq fetch initialPages (calls ++ [c])
      = obsSeq fetch initialPages calls
        ++ (match fetch c with | .ok l => l | .error _ => []) := by
  simp [obsSeq]

theorem edgesOf_snoc {ε : Type} (fetch : Nat → Except ε (List PageSummary))
    (calls : List Nat) (c : Nat) :
    edgesOf fetch (calls ++ [c])
      = edgesOf fetch calls ++ (resultIds (fetch c)).map (fun x => (c, x)) := by
  simp [edgesOf]

theorem obs_ids_subset {ε : Type} {fetch : Nat → Except ε (List PageSummary)}
    {initialPages : List PageSummary} {univ : List Nat}
    (hres : ∀ id, ∀ x ∈ resultIds (fetch id), x ∈ univ)
    (hinit : ∀ k ∈ initialPages.map (·.id), k ∈ univ) (calls : List Nat) :
    ∀ k ∈ (obsSeq fetch initialPages calls).map (·.id), k ∈ univ := by
  intro k hk
  obtain ⟨s, hs, rfl⟩ := List.mem_map.mp hk
  rcases List.mem_append.mp hs with hs | hs
  · exact hinit _ (List.mem_map_of_mem _ hs)
  · obtain ⟨c, hc, hsc⟩ := List.mem_flatMap.mp hs
    cases hf : fetch c with
    | error e =>
      rw [hf] at hsc
      simp at hsc
    | ok l =>
      rw [hf] at hsc
      simp at hsc
      refine hres c s.id ?_
      rw [hf]
      exact List.mem_map_of_mem _ hsc

theorem queue_length_le {initIds : List Nat} {obs : List PageSummary} {edges : List (Nat × Nat)}
    {st : BuildState} {univ : List Nat} (hi : Inv initIds obs edges st)
    (hobs : ∀ k ∈ obs.map (·.id), k ∈ univ) :
    st.queue.length ≤ univ.dedup.length := by
  have h2 : ∀ k ∈ st.queue, k ∈ univ := by
    intro k hk
    apply hobs
    rw [← hi.keys_iff_obs k, mapGet_isSome_iff, ← hi.queue_keys]
    exact hk
  calc st.queue.length = st.queue.toFinset.card := by
        rw [List.card_toFinset, hi.queue_nodup.dedup]
    _ ≤ univ.toFinset.card := Finset.card_le_card (fun x hx => by
        rw [List.mem_toFinset] at hx ⊢
        exact h2 x hx)
    _ = univ.dedup.length := List.card_toFinset univ

theorem inv_foldChildren {initIds : List Nat} {obs : List PageSummary} {edges : List (Nat × Nat)}
    {st : BuildState} (hi : Inv initIds obs edges st) {parentId : Nat}
    (hp : parentId ∈ st.queue) (children : List PageSummary) :
    Inv initIds (obs ++ children) (edges ++ children.map (fun s => (parentId, s.id)))
      (children.foldl (processChild parentId) st) := by
  induction children generalizing obs edges st with
  | nil => simpa using hi
  | cons c rest ih =>
    have h1 := inv_processChild hi hp c
    have hps : (mapGet st.pageMap parentId).isSome := by
      rw [mapGet_isSome_iff, ← hi.queue_keys]
      exact hp
    have hp1 : parentId ∈ (processChild parentId st c).queue := by
      rw [h1.queue_keys, ← mapGet_isSome_iff]
      refine (h1.keys_iff_obs parentId).mpr ?_
      have h3 := (hi.keys_iff_obs parentId).mp hps
      rw [List.map_append]
      exact List.mem_append_left _ h3
    have h2 := ih h1 hp1
    simpa using h2

theorem runLoop_spec {ε : Type} (fetch : Nat → Except ε (List PageSummary))
    (initialPages : List PageSummary) (univ : List Nat)
    (hres : ∀ id, ∀ x ∈ resultIds (fetch id), x ∈ univ)
    (hinit : ∀ k ∈ initialPages.map (·.id), k ∈ univ) :
    ∀ (fuel : Nat) (st : BuildState),
      Inv (initialPages.map (·.id)) (obsSeq fetch initialPages st.calls)
          (edgesOf fetch st.calls) st →
      (∀ c ∈ st.calls, (fetch c).isOk = true) →
      univ.dedup.length + 1 - st.head ≤ fuel →
      ∃ o, runLoop fetch fuel st = some o ∧
        Inv (initialPages.map (·.id)) (obsSeq fetch initialPages o.state.calls)
            (edgesOf fetch o.state.calls) o.state ∧
        (∀ st', o = .ok st' → st'.queue.length ≤ st'.head ∧
            ∀ c ∈ st'.calls, (fetch c).isOk = true) ∧
        (∀ e st', o = .fail e st' → ∃ pre bad, st'.calls = pre ++ [bad] ∧
            fetch bad = .error e ∧ ∀ c ∈ pre, (fetch c).isOk = true) := by
  intro fuel
  induction fuel with
  | zero =>
    intro st hInv hok hfuel
    exfalso
    have hq := queue_length_le hInv (obs_ids_subset hres hinit st.calls)
    have hh := hInv.head_le
    omega
  | succ n ih =>
    intro st hInv hok hfuel
    by_cases h : st.head < st.queue.length
    · have hcurmem : st.queue.get ⟨st.head, h⟩ ∈ st.queue :=
        List.mem_iff_get.mpr ⟨⟨st.head, h⟩, rfl⟩
      have hct : st.calls ++ [st.queue.get ⟨st.head, h⟩] = st.queue.take (st.head + 1) := by
        rw [List.take_succ, ← hInv.calls_take, List.getElem?_eq_getElem h]
        simp
      cases hf : fetch (st.queue.get ⟨st.head, h⟩) with
      | error e =>
        refine ⟨.fail e { st with head := st.head + 1
                                  calls := st.calls ++ [st.queue.get ⟨st.head, h⟩] },
          ?_, ?_, ?_, ?_⟩
        · simp only [runLoop]
          rw [dif_pos h]
          simp only [hf]
        · have ho : obsSeq fetch initialPages (st.calls ++ [st.queue.get ⟨st.head, h⟩])
              = obsSeq fetch initialPages st.calls := by
            rw [obsSeq_snoc, hf]
            simp
          have he : edgesOf fetch (st.calls ++ [st.queue.get ⟨st.head, h⟩])
              = edgesOf fetch st.calls := by
            rw [edgesOf_snoc, hf]
            simp [resultIds]
          simp only [Outcome.state]
          rw [ho, he]
          exact { hInv with head_le := h, calls_take := hct }
        · intro st' heq
          exact absurd heq (by simp)
        · intro e' st' heq
          have he' : e = e' := by injection heq
          have hst' : st' = { st with head := st.head + 1
                                      calls := st.calls ++ [st.queue.get ⟨st.head, h⟩] } := by
            injection heq with h1 h2
            exact h2.symm
          subst he'
          subst hst'
          exact ⟨st.calls, st.queue.get ⟨st.head, h⟩, rfl, hf, hok⟩
      | ok children =>
        have hInvMid : Inv (initialPages.map (·.id)) (obsSeq fetch initialPages st.calls)
            (edgesOf fetch st.calls)
            { st with head := st.head + 1
                      calls := st.calls ++ [st.queue.get ⟨st.head, h⟩] } :=
          { hInv with head_le := h, calls_take := hct }
        have hmid := inv_foldChildren hInvMid hcurmem children
        have hcalls := foldChildren_calls (st.queue.get ⟨st.head, h⟩) children
          { st with head := st.head + 1
                    calls := st.calls ++ [st.queue.get ⟨st.head, h⟩] }
        have hInvNew : Inv (initialPages.map (·.id))
            (obsSeq fetch initialPages
              (children.foldl (processChild (st.queue.get ⟨st.head, h⟩))
                { st with head := st.head + 1
                          calls := st.calls ++ [st.queue.get ⟨st.head, h⟩] }).calls)
            (edgesOf fetch
              (children.foldl (processChild (st.queue.get ⟨st.head, h⟩))
                { st with head := st.head + 1
                          calls := st.calls ++ [st.queue.get ⟨st.head, h⟩] }).calls)
            (children.foldl (processChild (st.queue.get ⟨st.head, h⟩))
              { st with head := st.head + 1
                        calls := st.calls ++ [st.queue.get ⟨st.head, h⟩] }) := by
          rw [hcalls.1]
          show Inv _ (obsSeq fetch initialPages (st.calls ++ [st.queue.get ⟨st.head, h⟩])) _ _
          rw [obsSeq_snoc, edgesOf_snoc]
          simp only [hf]
          simpa [resultIds, List.map_map, Function.comp] using hmid
        have hokNew : ∀ c ∈ (children.foldl (processChild (st.queue.get ⟨st.head, h⟩))
            { st with head := st.head + 1
                      calls := st.calls ++ [st.queue.get ⟨st.head, h⟩] }).calls,
            (fetch c).isOk = true := by
          rw [hcalls.1]
          intro c hc
          rcases List.mem_append.mp hc with hc | hc
          · exact hok c hc
          · simp at hc
            subst hc
            show (fetch (st.queue.get ⟨st.head, h⟩)).isOk = true
            rw [hf]
            rfl
        have hfuelNew : univ.dedup.length + 1
            - (children.foldl (processChild (st.queue.get ⟨st.head, h⟩))
              { st with head := st.head + 1
                        calls := st.calls ++ [st.queue.get ⟨st.head, h⟩] }).head ≤ n := by
          rw [hcalls.2]
          show univ.dedup.length + 1 - (st.head + 1) ≤ n
          omega
        obtain ⟨o, ho, hrest⟩ := ih _ hInvNew hokNew hfuelNew
        refine ⟨o, ?_, hrest⟩
        simp only [runLoop]
        rw [dif_pos h]
        simp only [hf]
        exact ho
    · refine ⟨.ok st, ?_, hInv, ?_, ?_⟩
      · simp only [runLoop]
        rw [dif_neg h]
      · intro st' heq
        have hst' : st' = st := by
          injection heq with h1
          exact h1.symm
        subst hst'
        exact ⟨Nat.le_of_not_lt h, hok⟩
      · intro e st' heq
        exact absurd heq (by simp)

theorem seedPage_calls (st : BuildState) (p : PageSummary) :
    (seedPage st p).calls = st.calls ∧ (seedPage st p).head = st.head := by
  unfold seedPage
  split <;> exact ⟨rfl, rfl⟩

theorem seed_calls (initialPages : List PageSummary) :
    (seed initialPages).calls = [] ∧ (seed initialPages).head = 0 := by
  suffices h : ∀ (pages : List PageSummary) (st : BuildState),
      (pages.foldl seedPage st).calls = st.calls ∧ (pages.foldl seedPage st).head = st.head by
    exact h initialPages initState
  intro pages
  induction pages with
  | nil => intro st; exact ⟨rfl, rfl⟩
  | cons p rest ih =>
    intro st
    have h1 := seedPage_calls st p
    have h2 := ih (seedPage st p)
    exact ⟨h2.1.trans h1.1, h2.2.trans h1.2⟩

theorem buildPageTree_spec {ε : Type} (table : FetchTable ε) (initialPages : List PageSummary) :
    ∃ o, buildPageTree table initialPages = some o ∧
      Inv (initialPages.map (·.id))
          (obsSeq (fetchOf table) initialPages o.state.calls)
          (edgesOf (fetchOf table) o.state.calls) o.state ∧
      (∀ st', o = .ok st' → st'.queue.length ≤ st'.head ∧
          ∀ c ∈ st'.calls, (fetchOf table c).isOk = true) ∧
      (∀ e st', o = .fail e st' → ∃ pre bad, st'.calls = pre ++ [bad] ∧
          fetchOf table bad = .error e ∧ ∀ c ∈ pre, (fetchOf table c).isOk = true) := by
  have hres : ∀ id, ∀ x ∈ resultIds (fetchOf table id), x ∈ univIds table initialPages := by
    intro id x hx
    unfold univIds
    refine List.mem_append_right _ ?_
    unfold fetchOf at hx
    cases hg : mapGet table id with
    | none =>
      rw [hg] at hx
      simp [resultIds] at hx
    | some r =>
      rw [hg] at hx
      simp at hx
      exact List.mem_flatMap.mpr ⟨(id, r), mem_of_mapGet_eq_some hg, hx⟩
  have hinit : ∀ k ∈ initialPages.map (·.id), k ∈ univIds table initialPages :=
    fun k hk => List.mem_append_left _ hk
  have hsc := seed_calls initialPages
  have hInv0 : Inv (initialPages.map (·.id))
      (obsSeq (fetchOf table) initialPages (seed initialPages).calls)
      (edgesOf (fetchOf table) (seed initialPages).calls) (seed initialPages) := by
    rw [hsc.1]
    have h1 : obsSeq (fetchOf table) initialPages [] = initialPages := by simp [obsSeq]
    have h2 : edgesOf (fetchOf table) [] = [] := by simp [edgesOf]
    rw [h1, h2]
    exact inv_seed initialPages
  have hok0 : ∀ c ∈ (seed initialPages).calls, (fetchOf table c).isOk = true := by
    rw [hsc.1]
    intro c hc
    simp at hc
  have hfuel : (univIds table initialPages).dedup.length + 1 - (seed initialPages).head
      ≤ (univIds table initialPages).dedup.length + 1 := by omega
  exact runLoop_spec (fetchOf table) initialPages (univIds table initialPages) hres hinit
    _ _ hInv0 hok0 hfuel

theorem runLoop_mono {ε : Type} (fetch : Nat → Except ε (List PageSummary)) :
    ∀ (fuel fuel' : Nat) (st : BuildState) (o : Outcome ε),
      runLoop fetch fuel st = some o → fuel ≤ fuel' → runLoop fetch fuel' st = some o := by
  intro fuel
  induction fuel with
  | zero =>
    intro fuel' st o h
    simp [runLoop] at h
  | succ n ih =>
    intro fuel' st o h hle
    obtain ⟨m, rfl⟩ : ∃ m, fuel' = m + 1 := ⟨fuel' - 1, by omega⟩
    simp only [runLoop] at h ⊢
    by_cases hcond : st.head < st.queue.length
    · rw [dif_pos hcond] at h ⊢
      cases hf : fetch (st.queue.get ⟨st.head, hcond⟩) with
      | error e =>
        simp only [hf] at h ⊢
        exact h
      | ok children =>
        simp only [hf] at h ⊢
        exact ih m _ o h (by omega)
    · rw [dif_neg hcond] at h ⊢
      exact h

theorem mem_rootPages {initIds : List Nat} {obs : List PageSummary} {edges : List (Nat × Nat)}
    {st : BuildState} (hi : Inv initIds obs edges st) {n : PageNode} :
    n ∈ rootPages st ↔ mapGet st.pageMap n.id = some n ∧ mapGet st.childOf n.id = none := by
  constructor
  · intro hmem
    obtain ⟨⟨k, v⟩, hkv, hf⟩ := List.mem_filterMap.mp hmem
    by_cases hcs : (mapGet st.childOf k).isSome
    · rw [if_pos hcs] at hf
      simp at hf
    · rw [if_neg hcs] at hf
      obtain rfl : v = n := by injection hf
      have hg := mapGet_eq_some_of_mem hi.keys_nodup hkv
      have hid := hi.node_id hg
      rw [hid]
      exact ⟨hg, Option.not_isSome_iff_eq_none.mp hcs⟩
  · rintro ⟨hg, hc⟩
    refine List.mem_filterMap.mpr ⟨(n.id, n), mem_of_mapGet_eq_some hg, ?_⟩
    rw [if_neg (by simp [hc])]

theorem mem_rootIds {initIds : List Nat} {obs : List PageSummary} {edges : List (Nat × Nat)}
    {st : BuildState} (hi : Inv initIds obs edges st) {c : Nat} :
    c ∈ rootIds st ↔ (mapGet st.pageMap c).isSome ∧ mapGet st.childOf c = none := by
  unfold rootIds
  constructor
  · intro h
    obtain ⟨n, hn, rfl⟩ := List.mem_map.mp h
    have h2 := (mem_rootPages hi).mp hn
    exact ⟨by simp [h2.1], h2.2⟩
  · rintro ⟨h1, h2⟩
    obtain ⟨n, hn⟩ := Option.isSome_iff_exists.mp h1
    have hid := hi.node_id hn
    refine List.mem_map.mpr ⟨n, (mem_rootPages hi).mpr ⟨?_, ?_⟩, hid⟩
    · rw [hid]
      exact hn
    · rw [hid]
      exact h2

theorem mem_parentsOf {initIds : List Nat} {obs : List PageSummary} {edges : List (Nat × Nat)}
    {st : BuildState} (hi : Inv initIds obs edges st) {c p : Nat} :
    p ∈ parentsOf st c ↔ c ∈ childIdsOfId st p := by
  unfold parentsOf
  constructor
  · intro h
    obtain ⟨⟨k, v⟩, hkv, hfst⟩ := List.mem_map.mp h
    rw [List.mem_filter] at hkv
    have hg := mapGet_eq_some_of_mem hi.keys_nodup hkv.1
    subst hfst
    exact mem_childIdsOfId.mpr ⟨v, hg, by simpa using hkv.2⟩
  · intro h
    obtain ⟨n, hg, hn⟩ := mem_childIdsOfId.mp h
    exact List.mem_map.mpr ⟨(p, n),
      List.mem_filter.mpr ⟨mem_of_mapGet_eq_some hg, by simpa using hn⟩, rfl⟩

theorem final_closed {ε : Type} {fetch : Nat → Except ε (List PageSummary)}
    {initialPages : List PageSummary} {st : BuildState}
    (hi : Inv (initialPages.map (·.id)) (obsSeq fetch initialPages st.calls)
      (edgesOf fetch st.calls) st) :
    ∀ p c, c ∈ childIdsOfId st p → (mapGet st.pageMap c).isSome := by
  intro p c hc
  obtain ⟨n, hg, hn⟩ := mem_childIdsOfId.mp hc
  have hedge := hi.childIds_edges p n c hg hn
  obtain ⟨q, hq, hqc⟩ := List.mem_flatMap.mp hedge
  obtain ⟨x, hx, hxe⟩ := List.mem_map.mp hqc
  obtain ⟨hqp, hxc⟩ : q = p ∧ x = c := by
    constructor <;> injection hxe
  rw [hqp, hxc] at hx
  rw [hqp] at hq
  rw [hi.keys_iff_obs]
  unfold obsSeq
  rw [List.map_append]
  refine List.mem_append_right _ ?_
  cases hf : fetch p with
  | error e =>
    rw [hf] at hx
    simp [resultIds] at hx
  | ok l =>
    rw [hf] at hx
    simp [resultIds] at hx
    obtain ⟨s, hs, rfl⟩ := hx
    refine List.mem_map.mpr ⟨s, List.mem_flatMap.mpr ⟨p, hq, by simp [hf, hs]⟩, rfl⟩

theorem reachable_subset {initIds : List Nat} {obs : List PageSummary} {edges : List (Nat × Nat)}
    {st : BuildState} (hi : Inv initIds obs edges st)
    (hclosed : ∀ p c, c ∈ childIdsOfId st p → (mapGet st.pageMap c).isSome) :
    ∀ k ∈ reachableIds st, (mapGet st.pageMap k).isSome := by
  unfold reachableIds
  suffices h : ∀ (m : Nat) (s : List Nat), (∀ k ∈ s, (mapGet st.pageMap k).isSome) →
      ∀ k ∈ (reachStep st)^[m] s, (mapGet st.pageMap k).isSome by
    apply h
    intro k hk
    exact ((mem_rootIds hi).mp hk).1
  intro m
  induction m with
  | zero =>
    intro s hs
    simpa using hs
  | succ m ih =>
    intro s hs
    rw [Function.iterate_succ_apply]
    apply ih
    intro k hk
    unfold reachStep at hk
    rw [List.mem_dedup] at hk
    rcases List.mem_append.mp hk with hk | hk
    · exact hs k hk
    · obtain ⟨p, hp, hcp⟩ := List.mem_flatMap.mp hk
      exact hclosed p k hcp

theorem keys_length_eq {initIds : List Nat} {obs : List PageSummary} {edges : List (Nat × Nat)}
    {st : BuildState} (hi : Inv initIds obs edges st) :
    st.pageMap.length = (obs.map (·.id)).dedup.length := by
  have hkeys : (st.pageMap.map Prod.fst).Nodup := hi.keys_nodup
  have hfin : (st.pageMap.map Prod.fst).toFinset = (obs.map (·.id)).toFinset := by
    ext k
    simp only [List.mem_toFinset]
    rw [← hi.keys_iff_obs k, mapGet_isSome_iff]
  have hcard := congrArg Finset.card hfin
  rw [List.card_toFinset, List.card_toFinset, hkeys.dedup] at hcard
  simpa using hcard

theorem build_ok_spec {ε : Type} {table : FetchTable ε} {initialPages : List PageSummary}
    {st : BuildState} (h : buildPageTree table initialPages = some (.ok st)) :
    Inv (initialPages.map (·.id)) (obsSeq (fetchOf table) initialPages st.calls)
      (edgesOf (fetchOf table) st.calls) st ∧
    st.queue.length ≤ st.head ∧ (∀ c ∈ st.calls, (fetchOf table c).isOk = true) := by
  obtain ⟨o, ho, hinv, hokc, _⟩ := buildPageTree_spec table initialPages
  have heq : o = Outcome.ok st := by
    have h2 := ho.symm.trans h
    injection h2
  subst heq
  exact ⟨hinv, (hokc st rfl).1, (hokc st rfl).2⟩

theorem build_fail_spec {ε : Type} {table : FetchTable ε} {initialPages : List PageSummary}
    {e : ε} {st : BuildState} (h : buildPageTree table initialPages = some (.fail e st)) :
    Inv (initialPages.map (·.id)) (obsSeq (fetchOf table) initialPages st.calls)
      (edgesOf (fetchOf table) st.calls) st ∧
    ∃ pre bad, st.calls = pre ++ [bad] ∧ fetchOf table bad = .error e ∧
      ∀ c ∈ pre, (fetchOf table c).isOk = true := by
  obtain ⟨o, ho, hinv, _, hfailc⟩ := buildPageTree_spec table initialPages
  have heq : o = Outcome.fail e st := by
    have h2 := ho.symm.trans h
    injection h2
  subst heq
  exact ⟨hinv, hfailc e st rfl⟩

theorem edge_mem_iff {ε : Type} (fetch : Nat → Except ε (List PageSummary))
    (calls : List Nat) (p c : Nat) :
    (p, c) ∈ edgesOf fetch calls ↔ p ∈ calls ∧ c ∈ resultIds (fetch p) := by
  unfold edgesOf
  rw [List.mem_flatMap]
  constructor
  · rintro ⟨q, hq, hm⟩
    obtain ⟨x, hx, hxe⟩ := List.mem_map.mp hm
    obtain ⟨h1, h2⟩ : q = p ∧ x = c := by
      constructor <;> injection hxe
    rw [h1, h2] at hx
    rw [h1] at hq
    exact ⟨hq, hx⟩
  · rintro ⟨hp, hc⟩
    exact ⟨p, hp, List.mem_map.mpr ⟨c, hc, rfl⟩⟩

/-- C1 (counterexample): in the multi-parent scenario (pages 1 and 2 both
report page 3 as a child, 2 processed after 1), the claim that page 3 ends up
in the children list of the last-processed parent only is false: the code
never removes page 3 from the children array of parent 1, so after the build
page 3 is still in parent 1's children list. -/
theorem c1_counterexample :
    ¬ (∀ st : BuildState, buildPageTree exMultiTable exMultiInit = some (.ok st) →
        3 ∉ childIdsOfId st 1) :=
  fun hclaim => hclaim cMultiState (by decide) (by decide)

/-- C1 (amended): in every completed build, a child id `c` whose final
ParentOf entry is `p` is in `p`'s children array and is not a root; moreover
every parent whose processed fetch answer listed `c` keeps `c` in its
children array — including parents processed before the last one. -/
theorem c1_amended {ε : Type} (table : FetchTable ε) (initialPages : List PageSummary)
    (st : BuildState) (h : buildPageTree table initialPages = some (.ok st)) :
    (∀ c p, mapGet st.childOf c = some p → c ∈ childIdsOfId st p ∧ c ∉ rootIds st) ∧
    (∀ p c, p ∈ st.calls → c ∈ resultIds (fetchOf table p) → c ∈ childIdsOfId st p) := by
  obtain ⟨hinv, _, _⟩ := build_ok_spec h
  constructor
  · intro c p hcp
    refine ⟨hinv.childOf_last c p hcp, ?_⟩
    intro hmem
    have h2 := ((mem_rootIds hinv).mp hmem).2
    rw [hcp] at h2
    simp at h2
  · intro p c hp hc
    exact hinv.edges_childIds p c ((edge_mem_iff (fetchOf table) st.calls p c).mpr ⟨hp, hc⟩)

/-- C1 (witness): the amended claim evaluated on the multi-parent scenario:
page 3's recorded parent is page 2, so 3 is in page 2's children array and is
not a root. -/
theorem c1_witness : 3 ∈ childIdsOfId cMultiState 2 ∧ 3 ∉ rootIds cMultiState :=
  (c1_amended exMultiTable exMultiInit cMultiState (by decide)).1 3 2 (by decide)

/-- C2 (counterexample): in the multi-parent scenario the claim that every
non-root id is nested in the children list of exactly one parent is false:
id 3 is not a root and is in the children lists of both parents 1 and 2. -/
theorem c2_counterexample :
    ¬ (∀ st : BuildState, buildPageTree exMultiTable exMultiInit = some (.ok st) →
        ∀ c ∈ st.pageMap.map Prod.fst, c ∈ rootIds st ∨ (parentsOf st c).length = 1) :=
  fun hclaim => absurd (hclaim cMultiState (by decide) 3 (by decide)) (by decide)

/-- C2 (amended): in every completed build, an id occurs in the registry iff
it was observed in `initialPages` or in some processed fetch answer, and it
occurs there exactly once (registry keys are distinct); a root is in no
node's children list, and a non-root is in the children list of (at least)
its last-recorded parent — possibly of several parents. -/
theorem c2_amended {ε : Type} (table : FetchTable ε) (initialPages : List PageSummary)
    (st : BuildState) (h : buildPageTree table initialPages = some (.ok st)) :
    (∀ k, k ∈ observedIds (fetchOf table) initialPages st.calls ↔ k ∈ st.pageMap.map Prod.fst) ∧
    (st.pageMap.map Prod.fst).Nodup ∧
    (∀ k, k ∈ rootIds st → parentsOf st k = []) ∧
    (∀ k p, mapGet st.childOf k = some p → p ∈ parentsOf st k) := by
  obtain ⟨hinv, _, _⟩ := build_ok_spec h
  refine ⟨?_, hinv.keys_nodup, ?_, ?_⟩
  · intro k
    rw [← mapGet_isSome_iff, hinv.keys_iff_obs k]
    exact Iff.rfl
  · intro k hk
    have hnone := ((mem_rootIds hinv).mp hk).2
    rw [List.eq_nil_iff_forall_not_mem]
    intro p hp
    have hc := (mem_parentsOf hinv).mp hp
    obtain ⟨n, hg, hn⟩ := mem_childIdsOfId.mp hc
    have hedge := hinv.childIds_edges p n k hg hn
    have hsome := (hinv.childOf_iff k).mpr ⟨p, hedge⟩
    rw [hnone] at hsome
    simp at hsome
  · intro k p hkp
    exact (mem_parentsOf hinv).mpr (hinv.childOf_last k p hkp)

/-- C2 (witness): the amended claim evaluated on the scenario-2 build: page
2's recorded parent 1 is among the parents holding 2 in their children
lists. -/
theorem c2_witness : 1 ∈ parentsOf cChainState 2 :=
  (c2_amended exChainTable exChainInit cChainState (by decide)).2.2.2 2 1 (by decide)

/-- C3 (counterexample): in the cyclic scenario (1 and 2 report each other as
children) both observed ids get ParentOf entries, the root set is empty, and
nothing is reachable from the roots; the claim that the number of distinct
nodes in the output forest equals the number of distinct observed ids is
false there (0 against 2). -/
theorem c3_counterexample :
    ¬ (∀ st : BuildState, buildPageTree exCycleTable exCycleInit = some (.ok st) →
        (reachableIds st).dedup.length
          = (observedIds (fetchOf exCycleTable) exCycleInit st.calls).dedup.length) :=
  fun hclaim => absurd (hclaim cCycleState (by decide)) (by decide)

/-- C3 (amended): in every completed build at most one PageNode exists per
distinct id (the registry keys are distinct) and the registry holds exactly
one node per distinct observed id — its size equals the number of distinct
ids observed across `initialPages` and all processed fetch answers; the
output forest (the ids reachable from the root set) is contained in the
registry, but with cyclic child data it can be a proper subset. -/
theorem c3_amended {ε : Type} (table : FetchTable ε) (initialPages : List PageSummary)
    (st : BuildState) (h : buildPageTree table initialPages = some (.ok st)) :
    (st.pageMap.map Prod.fst).Nodup ∧
    st.pageMap.length = (observedIds (fetchOf table) initialPages st.calls).dedup.length ∧
    (∀ k ∈ reachableIds st, k ∈ st.pageMap.map Prod.fst) := by
  obtain ⟨hinv, _, _⟩ := build_ok_spec h
  refine ⟨hinv.keys_nodup, keys_length_eq hinv, ?_⟩
  intro k hk
  rw [← mapGet_isSome_iff]
  exact reachable_subset hinv (final_closed hinv) k hk

/-- C3 (witness): the amended claim evaluated on the scenario-2 build: the
registry has exactly as many nodes as distinct observed ids. -/
theorem c3_witness : cChainState.pageMap.length
    = (observedIds (fetchOf exChainTable) exChainInit cChainState.calls).dedup.length :=
  (c3_amended exChainTable exChainInit cChainState (by decide)).2.1

/-- C4: every build terminates (the returned option is never `none`, even for
self-referential or cyclic child data), and `fetchChildren` is invoked at
most once per unique id: the call trace contains no id twice, no matter how
often an id occurs as a child in fetch answers. -/
theorem c4_termination {ε : Type} (table : FetchTable ε) (initialPages : List PageSummary) :
    buildPageTree table initialPages ≠ none ∧
    ∀ o, buildPageTree table initialPages = some o → o.state.calls.Nodup := by
  obtain ⟨o, ho, hinv, _, _⟩ := buildPageTree_spec table initialPages
  constructor
  · rw [ho]
    simp
  · intro o' ho'
    have heq : o = o' := by
      have h2 := ho.symm.trans ho'
      injection h2
    subst heq
    rw [hinv.calls_take]
    exact (List.take_sublist _ _).nodup hinv.queue_nodup

/-- C4 (witness): the self-child build (page 1 lists itself as its own child)
terminates and calls `fetchChildren` exactly once, on id 1. -/
theorem c4_witness : buildPageTree exSelfTable exSelfInit ≠ none ∧ ([1] : List Nat).Nodup :=
  ⟨(c4_termination exSelfTable exSelfInit).1,
   (c4_termination exSelfTable exSelfInit).2 (.ok cSelfState) (by decide)⟩

/-- C5: in every completed build no children array contains two entries with
the same id (stated for every registered id, which covers every node of the
output forest); in particular a child returned twice by one parent's fetch
occurs once in that parent's children array. -/
theorem c5_no_duplicate_children {ε : Type} (table : FetchTable ε)
    (initialPages : List PageSummary) (st : BuildState)
    (h : buildPageTree table initialPages = some (.ok st)) :
    ∀ k, (childIdsOfId st k).Nodup := by
  obtain ⟨hinv, _, _⟩ := build_ok_spec h
  intro k
  unfold childIdsOfId childIdsAt
  cases hg : mapGet st.pageMap k with
  | none => simp
  | some n => simpa using hinv.childIds_nodup k n hg

/-- C5 (witness): scenario 3 — `fetchChildren` for page 1 answers `{id 2}`
twice; node 1's children array is `[2]`, which is duplicate-free. -/
theorem c5_witness : childIdsOfId cDupState 1 = [2] ∧ (childIdsOfId cDupState 1).Nodup :=
  ⟨by decide, c5_no_duplicate_children exDupTable exDupInit cDupState (by decide) 1⟩

/-- C6: in every completed build a registered id is a root iff it is not a
key of the ParentOf map when classification runs, and it is such a key iff
some processed fetch answer listed it as a child; in particular an id from
`initialPages` later returned as some page's child is excluded from the
roots. -/
theorem c6_root_iff {ε : Type} (table : FetchTable ε) (initialPages : List PageSummary)
    (st : BuildState) (h : buildPageTree table initialPages = some (.ok st)) :
    ∀ c, (c ∈ rootIds st ↔ (mapGet st.pageMap c).isSome ∧ mapGet st.childOf c = none) ∧
      (mapGet st.childOf c = none ↔ ∀ p ∈ st.calls, c ∉ resultIds (fetchOf table p)) := by
  obtain ⟨hinv, _, _⟩ := build_ok_spec h
  intro c
  refine ⟨mem_rootIds hinv, ?_, ?_⟩
  · intro hnone p hp hc
    have hsome := (hinv.childOf_iff c).mpr
      ⟨p, (edge_mem_iff (fetchOf table) st.calls p c).mpr ⟨hp, hc⟩⟩
    rw [hnone] at hsome
    simp at hsome
  · intro hnever
    cases hg : mapGet st.childOf c with
    | none => rfl
    | some p =>
      have hsome : (mapGet st.childOf c).isSome := by simp [hg]
      obtain ⟨q, hq⟩ := (hinv.childOf_iff c).mp hsome
      obtain ⟨hq1, hq2⟩ := (edge_mem_iff (fetchOf table) st.calls q c).mp hq
      exact absurd hq2 (hnever q hq1)

/-- C6 (witness): in scenario 2, page 1 is a root and page 2 — listed
initially but returned as a child of page 1 — is not. -/
theorem c6_witness : 1 ∈ rootIds cChainState ∧ 2 ∉ rootIds cChainState :=
  ⟨((c6_root_iff exChainTable exChainInit cChainState (by decide)) 1).1.mpr
      ⟨by decide, by decide⟩,
   fun hm => absurd
      (((c6_root_iff exChainTable exChainInit cChainState (by decide)) 2).1.mp hm).2
      (by decide)⟩

/-- C7: if a `fetchChildren` invocation fails, the whole build fails with
exactly that error: the failing id is the last call of the trace, it was
called only once (not retried), every earlier call succeeded, and no forest
is produced (only the `fail` outcome carrying the error is returned); when
the build returns `ok`, every issued call succeeded. -/
theorem c7_error_propagation {ε : Type} (table : FetchTable ε)
    (initialPages : List PageSummary) :
    (∀ e st, buildPageTree table initialPages = some (.fail e st) →
      ∃ pre bad, st.calls = pre ++ [bad] ∧ fetchOf table bad = .error e ∧
        bad ∉ pre ∧ ∀ c ∈ pre, (fetchOf table c).isOk = true) ∧
    (∀ st, buildPageTree table initialPages = some (.ok st) →
      ∀ c ∈ st.calls, (fetchOf table c).isOk = true) := by
  constructor
  · intro e st h
    obtain ⟨hinv, pre, bad, hsplit, hbad, hpre⟩ := build_fail_spec h
    refine ⟨pre, bad, hsplit, hbad, ?_, hpre⟩
    have hnodup : st.calls.Nodup := by
      rw [hinv.calls_take]
      exact (List.take_sublist _ _).nodup hinv.queue_nodup
    rw [hsplit, List.nodup_append] at hnodup
    intro hm
    exact hnodup.2.2 hm (by simp)
  · intro st h
    exact (build_ok_spec h).2.2

/-- C7 (witness): in the failing-fetch scenario the build fails with the
error of the second call; the first call succeeded and the failing id was
called once. -/
theorem c7_witness :
    (∃ pre bad, cErrState.calls = pre ++ [bad] ∧ fetchOf exErrTable bad = .error "boom" ∧
      bad ∉ pre ∧ ∀ c ∈ pre, (fetchOf exErrTable c).isOk = true) ∧
    (∀ c ∈ cChainState.calls, (fetchOf exChainTable c).isOk = true) :=
  ⟨(c7_error_propagation exErrTable exErrInit).1 "boom" cErrState (by decide),
   (c7_error_propagation exChainTable exChainInit).2 cChainState (by decide)⟩

/-- C8: the `fetchChildren` calls of a completed build are issued in FIFO
order of discovery — the call trace equals the enqueue-ordered queue — and
the build is deterministic: two runs against remote behaviours that agree as
functions produce the same outcome. -/
theorem c8_fifo_deterministic {ε : Type} (table table2 : FetchTable ε)
    (initialPages : List PageSummary) :
    (∀ st, buildPageTree table initialPages = some (.ok st) → st.calls = st.queue) ∧
    (fetchOf table = fetchOf table2 →
      buildPageTree table initialPages = buildPageTree table2 initialPages) := by
  constructor
  · intro st h
    obtain ⟨hinv, hlen, _⟩ := build_ok_spec h
    rw [hinv.calls_take]
    exact List.take_of_length_le (le_trans hlen (le_of_eq rfl)) |>.trans rfl
  · intro hfeq
    obtain ⟨o1, ho1, _⟩ := buildPageTree_spec table initialPages
    obtain ⟨o2, ho2, _⟩ := buildPageTree_spec table2 initialPages
    rw [ho1, ho2]
    unfold buildPageTree at ho1 ho2
    rw [← hfeq] at ho2
    have h1 := runLoop_mono (fetchOf table) _
      (max ((univIds table initialPages).dedup.length + 1)
        ((univIds table2 initialPages).dedup.length + 1)) _ o1 ho1 (le_max_left _ _)
    have h2 := runLoop_mono (fetchOf table) _
      (max ((univIds table initialPages).dedup.length + 1)
        ((univIds table2 initialPages).dedup.length + 1)) _ o2 ho2 (le_max_right _ _)
    rw [h1] at h2
    injection h2 with h3
    rw [h3]

/-- C8 (witness): on scenario 2 the call trace equals the discovery-ordered
queue, and re-running against the same remote behaviour gives the same
result. -/
theorem c8_witness : cChainState.calls = cChainState.queue ∧
    buildPageTree exChainTable exChainInit = buildPageTree exChainTable exChainInit :=
  ⟨(c8_fifo_deterministic exChainTable exChainTable exChainInit).1 cChainState (by decide),
   (c8_fifo_deterministic exChainTable exChainTable exChainInit).2 rfl⟩

/-- C9: every root of a completed build originates from `initialPages`: an id
first discovered as a fetch answer gets its parent edge recorded at creation
and edges are never removed, so it is never a root. -/
theorem c9_roots_from_initial {ε : Type} (table : FetchTable ε)
    (initialPages : List PageSummary) (st : BuildState)
    (h : buildPageTree table initialPages = some (.ok st)) :
    ∀ n ∈ rootPages st, n.id ∈ initialPages.map (·.id) := by
  obtain ⟨hinv, _, _⟩ := build_ok_spec h
  intro n hn
  have h2 := (mem_rootPages hinv).mp hn
  have h3 : n.id ∈ st.queue := by
    rw [hinv.queue_keys, ← mapGet_isSome_iff, h2.1]
    rfl
  rcases hinv.keys_from n.id h3 with h4 | h4
  · exact h4
  · rw [h2.2] at h4
    simp at h4

/-- C9 (witness): in scenario 2 the only root is page 1, whose id is listed
in `initialPages`. -/
theorem c9_witness : (⟨1, "A", [2]⟩ : PageNode).id ∈ exChainInit.map (·.id) :=
  c9_roots_from_initial exChainTable exChainInit cChainState (by decide)
    ⟨1, "A", [2]⟩ (by decide)

/-- C10: in every completed build, nodes are registered at most once per id,
and the id and title of the node registered under `k` equal those of the
first summary observed with id `k` (initial listing first, then fetch
answers in call order); later summaries with the same id — including
duplicate entries of `initialPages`, seeded only once — do not alter them. -/
theorem c10_first_observation {ε : Type} (table : FetchTable ε)
    (initialPages : List PageSummary) (st : BuildState)
    (h : buildPageTree table initialPages = some (.ok st)) :
    (st.pageMap.map Prod.fst).Nodup ∧
    ∀ k n, mapGet st.pageMap k = some n →
      ∃ s, (obsSeq (fetchOf table) initialPages st.calls).find? (fun s => s.id == k) = some s ∧
        n.id = s.id ∧ n.title = s.title := by
  obtain ⟨hinv, _, _⟩ := build_ok_spec h
  refine ⟨hinv.keys_nodup, ?_⟩
  intro k n hg
  have h1 := hinv.node_first k
  rw [hg] at h1
  cases hf : (obsSeq (fetchOf table) initialPages st.calls).find? (fun s => s.id == k) with
  | none =>
    rw [hf] at h1
    simp at h1
  | some s =>
    rw [hf] at h1
    simp at h1
    exact ⟨s, rfl, h1.1, h1.2⟩

/-- C10 (witness): with `initialPages = [{id 1, title A}, {id 1, title Z}]`
the node for id 1 keeps the first title `A`; the first observed summary with
id 1 carries exactly the node's id and title. -/
theorem c10_witness :
    ∃ s, (obsSeq (fetchOf exDupInitTable) exDupInitInit cDupInitState.calls).find?
        (fun s => s.id == 1) = some s ∧
      (⟨1, "A", []⟩ : PageNode).id = s.id ∧ (⟨1, "A", []⟩ : PageNode).title = s.title :=
  (c10_first_observation exDupInitTable exDupInitInit cDupInitState (by decide)).2
    1 ⟨1, "A", []⟩ (by decide)

end ConfluenceExporter
